import Mathlib

/-!
# Verification of the `n` knowledge-base engine against its specification

This file gives a shallow embedding of the core of the `n` vault engine
(`src/search.rs`, `src/pos.rs`, `src/path.rs`, `src/rank.rs`, `src/query.rs`,
`src/document.rs`, `src/lsp.rs`) and settles the spec claims about it.

Modelling conventions:
* Rust `usize`/`u32` counters become `Nat`; `i64` becomes `Int` with explicit
  range checks where the source checks ranges.
* `f32` arithmetic is modelled by exact arithmetic (`ℚ`/`ℝ`); `x / 0` is the
  Lean convention `0`.  Where a claim is specifically about the float
  indeterminate `0.0 / 0.0` (NaN) we model the division outcome explicitly.
* Rust `HashMap`s built by iteration are modelled as association lists whose
  lookup returns the first (most recently inserted) matching entry; the
  `HashMap::extend` used in the rayon reductions overwrites existing keys,
  which is modelled by list append with lookup preferring the front.
* External effects (the filesystem canonicalizer, the `nlprule` tokenizer
  binary, the `pulldown_cmark` event stream) are not part of `src/`; they are
  modelled from the spec where a claim needs them, and each such definition is
  marked `Modelled from the spec:` in its doc comment.
-/

namespace NSpec

/-! ## Association-list maps

Rust `HashMap` / `BTreeMap` lookups, modelled as first-match association list
lookup.  `HashMap::extend`'s overwrite-on-duplicate semantics corresponds to
prepending the extending list. -/

/-- First-match lookup in an association list, `HashMap::get`. -/
def alGet {α : Type} (m : List (String × α)) (k : String) : Option α :=
  (m.find? (fun kv => kv.1 = k)).map (fun kv => kv.2)

/-! ## `document.rs`: YAML values and metadata (`Value`, `Document::get_metadata`) -/

/-- `Value` from `document.rs`: the tagged union over YAML scalar and composite
kinds.  `Hash` keys are `Value`s (a `BTreeMap<Value, Value>` in the source,
modelled as an association list of pairs); `str` is the source's `String`
variant, `nullV`/`badV` are `Null`/`Bad`. -/
inductive Value where
  | real (val : String)
  | integer (n : Int)
  | str (val : String)
  | boolean (b : Bool)
  | array (values : List Value)
  | hashV (map : List (Value × Value))
  | aliasV (idx : Nat)
  | nullV
  | badV

/-- Digits of a decimal literal folded to a `Nat`; `none` if empty or a
non-digit appears.  Helper for the Rust `str::parse` integer paths. -/
def decDigits (cs : List Char) : Option Nat :=
  if cs.isEmpty then none
  else
    cs.foldl
      (fun acc c =>
        match acc with
        | none => none
        | some n => if c.isDigit then some (n * 10 + (c.toNat - 48)) else none)
      (some 0)

/-- Rust `str::parse::<i64>`: optional sign, one or more ASCII digits, and the
value must fit in `i64`. -/
def parseI64 (s : String) : Option Int :=
  let signed : Option Int :=
    match s.toList with
    | '+' :: rest => (decDigits rest).map (fun n => (n : Int))
    | '-' :: rest => (decDigits rest).map (fun n => -(n : Int))
    | cs => (decDigits cs).map (fun n => (n : Int))
  signed.bind (fun n => if -(2 ^ 63) ≤ n ∧ n < 2 ^ 63 then some n else none)

/-- Rust `str::parse::<bool>`: exactly `true` or `false`. -/
def parseBool (s : String) : Option Bool :=
  if s = "true" then some true else if s = "false" then some false else none

/-- Rust `str::parse::<usize>` (64-bit): one or more ASCII digits, optional
leading `+`, value below `2 ^ 64`. -/
def parseUsize (s : String) : Option Nat :=
  let unsigned : Option Nat :=
    match s.toList with
    | '+' :: rest => decDigits rest
    | cs => decDigits cs
  unsigned.bind (fun n => if n < 2 ^ 64 then some n else none)

mutual

/-- `Value::contains` from `document.rs`: string equality at `Real`/`String`
leaves, `Integer`/`Boolean`/`Alias` by parsing the needle, `Array` when any
element contains it, `Hash` when any key or value contains it, `Null`/`Bad`
never. -/
def Value.contains : Value → String → Bool
  | .real val, needle => val = needle
  | .str val, needle => val = needle
  | .integer n, needle => ((parseI64 needle).map (fun m => decide (m = n))).getD false
  | .boolean b, needle => ((parseBool needle).map (fun m => m == b)).getD false
  | .aliasV idx, needle => ((parseUsize needle).map (fun m => decide (m = idx))).getD false
  | .array values, needle => containsAnyValue values needle
  | .hashV map, needle => containsAnyPair map needle
  | .nullV, _ => false
  | .badV, _ => false

/-- `values.iter().any(|v| v.contains(needle))` over an array's elements. -/
def containsAnyValue : List Value → String → Bool
  | [], _ => false
  | v :: rest, needle => Value.contains v needle || containsAnyValue rest needle

/-- `map.iter().any(|(k, v)| k.contains(needle) || v.contains(needle))` over a
mapping's entries. -/
def containsAnyPair : List (Value × Value) → String → Bool
  | [], _ => false
  | (k, v) :: rest, needle =>
      Value.contains k needle || Value.contains v needle || containsAnyPair rest needle

end

/-- The slice of `Document` that `Query::matches` reads: the metadata mapping
(`BTreeMap<String, Value>` in the source). -/
structure DocumentM where
  metadata : List (String × Value)

/-- `Document::get_metadata`: map lookup by key. -/
def DocumentM.getMetadata (doc : DocumentM) (key : String) : Option Value :=
  alGet doc.metadata key

/-! ## `query.rs`: the boolean query tree -/

/-- `Query` from `query.rs`. -/
inductive Query where
  | containsQ (key : String) (value : String)
  | notQ (q : Query)
  | andQ (l : Query) (r : Query)
  | orQ (l : Query) (r : Query)
  | xorQ (l : Query) (r : Query)
deriving Repr, DecidableEq

/-- `Query::matches` from `query.rs`: `Contains` looks the key up in the
document metadata and asks `Value::contains`; the combinators are boolean
negation, conjunction, disjunction and exclusive-or. -/
def Query.matches : Query → DocumentM → Bool
  | .containsQ key value, doc =>
      ((doc.getMetadata key).map (fun target => target.contains value)).getD false
  | .notQ q, doc => !(q.matches doc)
  | .andQ l r, doc => l.matches doc && r.matches doc
  | .orQ l r, doc => l.matches doc || r.matches doc
  | .xorQ l r, doc => (l.matches doc).xor (r.matches doc)

/-! ## `path.rs`: canonical Markdown paths (`MarkdownPath`)

Paths (`PathBuf`) are modelled by their string form.  The
`percent_encoding` crate's fragment-set encoder (as used by the
`maybe_encode` helper in `path.rs`) and its decoder are modelled at the
character level for ASCII inputs, where byte-level and character-level
processing coincide. -/

/-- The fragment percent-encode set of `path.rs`: C0 controls and DEL
(`CONTROLS`) plus space, double quote, `<`, `>` and the backquote
(character 96). -/
def isFragment (c : Char) : Bool :=
  c = ' ' || c = '\x22' || c = '<' || c = '>' || c = Char.ofNat 96 ||
    c.toNat < 32 || c.toNat = 127

/-- Upper-case hexadecimal digit for `n < 16`. -/
def pctHexDigit (n : Nat) : Char :=
  if n < 10 then Char.ofNat (48 + n) else Char.ofNat (55 + n)

/-- `utf8_percent_encode` of one character under the fragment set. -/
def encChar (c : Char) : List Char :=
  if isFragment c then ['%', pctHexDigit (c.toNat / 16), pctHexDigit (c.toNat % 16)]
  else [c]

/-- `utf8_percent_encode` over a text (ASCII inputs). -/
def encodeList : List Char → List Char
  | [] => []
  | c :: rest => encChar c ++ encodeList rest

/-- Value of one hexadecimal digit character. -/
def hexVal (c : Char) : Option Nat :=
  if 48 ≤ c.toNat ∧ c.toNat ≤ 57 then some (c.toNat - 48)
  else if 65 ≤ c.toNat ∧ c.toNat ≤ 70 then some (c.toNat - 55)
  else if 97 ≤ c.toNat ∧ c.toNat ≤ 102 then some (c.toNat - 87)
  else none

/-- Fuel-indexed worker for `decodeList` (the fuel dominates the input
length, so the `0` case is unreachable). -/
def decodeAux : Nat → List Char → List Char
  | 0, cs => cs
  | _ + 1, [] => []
  | fuel + 1, c :: rest =>
      if c = '%' then
        match rest with
        | h1 :: h2 :: rest2 =>
            match hexVal h1, hexVal h2 with
            | some a, some b => Char.ofNat (16 * a + b) :: decodeAux fuel rest2
            | _, _ => c :: decodeAux fuel rest
        | _ => c :: decodeAux fuel rest
      else c :: decodeAux fuel rest

/-- `percent_decode_str(..).decode_utf8_lossy()` (ASCII inputs): each `%`
followed by two hex digits becomes the denoted byte; a `%` not starting a
valid escape passes through literally. -/
def decodeList (cs : List Char) : List Char := decodeAux cs.length cs

/-- The reversed final path component: the characters before the last `/`,
read back-to-front. -/
def nameRev (cs : List Char) : List Char :=
  cs.reverse.takeWhile (fun c => c ≠ '/')

/-- The extension splitter's predicate: every character except the dot. -/
def notDotB (c : Char) : Bool := c ≠ '.'

/-- `Path::extension()`: the characters after the last `.` of the final
component, provided that dot exists and is not the component's first
character. -/
def fileExtension (p : String) : Option (List Char) :=
  let rev := nameRev p.toList
  let extRev := rev.takeWhile notDotB
  if extRev.length = rev.length then none
  else if extRev.length + 1 = rev.length then none
  else some extRev.reverse

/-- `MarkdownPath` from `path.rs`: the (decoded) base directory, the
(decoded) leaf, and the canonicalized full path. -/
structure MarkdownPath where
  basePath : String
  leaf : String
  canonicalPath : String
deriving Repr, DecidableEq

/-- Outcome of `MarkdownPath::new`: success or one of the two `PathError`
variants. -/
inductive PathResult where
  | okP (p : MarkdownPath)
  | notMarkdown (path : String)
  | canonicalisationFailed (path : String)
deriving Repr, DecidableEq

/-- `PathBuf::join`: an absolute leaf replaces the base; otherwise the leaf is
appended with a separator unless the base is empty or already ends in one. -/
def joinPath (base leaf : String) : String :=
  if leaf.toList.head? = some '/' then leaf
  else if base = "" then leaf
  else if base.toList.getLast? = some '/' then base ++ leaf
  else base ++ "/" ++ leaf

/-- `MarkdownPath::new` from `path.rs`, parameterized by the filesystem
canonicalizer `canon` (an external effect): reject a leaf whose extension is
not `md`, percent-decode base and leaf, join, canonicalize. -/
def markdownPathNew (canon : String → Option String) (basePath path : String) :
    PathResult :=
  if fileExtension path = some ['m', 'd'] then
    let base : String := ⟨decodeList basePath.toList⟩
    let leaf : String := ⟨decodeList path.toList⟩
    let joined := joinPath base leaf
    match canon joined with
    | some c => .okP { basePath := base, leaf := leaf, canonicalPath := c }
    | none => .canonicalisationFailed joined
  else .notMarkdown path

/-- `PartialEq for MarkdownPath`: equality compares `self.path()`, the
canonical path, only. -/
def MarkdownPath.pathEq (p q : MarkdownPath) : Prop :=
  p.canonicalPath = q.canonicalPath

/-- The data `#[derive(Hash)]` feeds to the hasher for a `MarkdownPath`: all
three fields in declaration order.  Two values hash identically exactly when
the fed streams agree (the hasher is deterministic). -/
def hashInput (p : MarkdownPath) : List String :=
  [p.basePath, p.leaf, p.canonicalPath]

/-- Modelled from the spec: `fs::canonicalize` resolves through the
filesystem (an effect outside `src/`); on an existing path that is already in
canonical form it returns the path unchanged.  Concrete instantiations below
use this identity behaviour on already-canonical absolute paths. -/
def canonId : String → Option String := fun s => some s

/-- Reversed percent-encoding: encode each character and reverse the emitted
chunk, preserving order of chunks.  Helper relating `encodeList` to reversed
texts. -/
def encodeRevList : List Char → List Char
  | [] => []
  | c :: rest => (encChar c).reverse ++ encodeRevList rest

/-! ## `pos.rs`: byte offsets versus (row, column) positions (`PosMapper`)

Text is modelled as its list of Unicode scalar values; byte offsets are
recovered through `Char.utf8Size`.  `usize` underflow (`0 - 1` in debug
builds) and the subsequent out-of-bounds index both abort the program, so the
evaluation result type has an explicit `panicked` outcome. -/

/-- The supported `PositionEncodingKind`s. -/
inductive Enc where
  | utf8
  | utf16
  | utf32
deriving Repr, DecidableEq

/-- The `PositionError` variants reachable from the embedded conversions. -/
inductive PositionErrorM where
  | offsetOutOfRange (offset : Nat) (length : Nat)
  | lineNotFound (line : Nat)
deriving Repr, DecidableEq

/-- Outcome of running a `pos.rs` conversion: a value, a returned
`PositionError`, or a panic (abort). -/
inductive RunResult (α : Type) where
  | ok (val : α)
  | err (e : PositionErrorM)
  | panicked
deriving Repr, DecidableEq

/-- The number of UTF-16 code units of one scalar value (1 or 2). -/
def utf16Len (c : Char) : Nat := if c.toNat ≥ 65536 then 2 else 1

/-- UTF-8 byte length of a text. -/
def byteLen (cs : List Char) : Nat := (cs.map Char.utf8Size).sum

/-- Drop the characters occupying the first `n` bytes (callers slice at
character boundaries, as the source's `&text[a..b]` requires). -/
def byteDrop : List Char → Nat → List Char
  | cs, 0 => cs
  | [], _ => []
  | c :: rest, n => byteDrop rest (n - c.utf8Size)

/-- Take the characters occupying the first `n` bytes. -/
def byteTake : List Char → Nat → List Char
  | _, 0 => []
  | [], _ => []
  | c :: rest, n => if c.utf8Size ≤ n then c :: byteTake rest (n - c.utf8Size) else []

/-- `PosMapper::new`'s `line_starts`: the byte offsets just after each
newline.  (Note: the offset `0` of the first line is **not** included.) -/
def lineStartsAux : List Char → Nat → List Nat
  | [], _ => []
  | c :: rest, idx =>
      if c = '\n' then (idx + 1) :: lineStartsAux rest (idx + c.utf8Size)
      else lineStartsAux rest (idx + c.utf8Size)

/-- `PosMapper` from `pos.rs`: the text, the precomputed line starts, and the
chosen encoding. -/
structure PosMapper where
  text : List Char
  lineStarts : List Nat
  encoding : Enc
deriving Repr, DecidableEq

/-- `PosMapper::new`. -/
def PosMapper.new (text : List Char) (encoding : Enc) : PosMapper :=
  { text := text, lineStarts := lineStartsAux text 0, encoding := encoding }

/-- `slice::partition_point(|&start| start <= offset)` on the sorted
`line_starts`: the number of leading entries `≤ offset`. -/
def partitionPoint (starts : List Nat) (offset : Nat) : Nat :=
  (starts.takeWhile (fun s => s ≤ offset)).length

/-- The UTF-16 code-unit count of a text. -/
def utf16LenList (cs : List Char) : Nat := (cs.map utf16Len).sum

/-- `PosMapper::offset_to_position` from `pos.rs`.  Rejects `offset >
text.len()` with `OffsetOutOfRange`; otherwise computes
`partition_point(..) - 1`: when the partition point is `0` (every offset on
the first line) the `usize` subtraction underflows and the program panics,
modelled as `panicked`. -/
def PosMapper.offsetToPosition (m : PosMapper) (offset : Nat) : RunResult (Nat × Nat) :=
  if offset > byteLen m.text then
    .err (.offsetOutOfRange offset (byteLen m.text))
  else
    let pp := partitionPoint m.lineStarts offset
    if pp = 0 then .panicked
    else
      let lineStartIdx := pp - 1
      let lineStart := m.lineStarts.getD lineStartIdx 0
      let before := byteTake (byteDrop m.text lineStart) (offset - lineStart)
      let character :=
        match m.encoding with
        | .utf16 => utf16LenList before
        | .utf8 => before.length
        | .utf32 => before.length
      .ok (lineStartIdx + 1, character)

/-- The UTF-16 walk in `position_to_offset`: accumulate code units until the
target `character` is reached, returning the byte offset walked. -/
def utf16Walk : List Char → Nat → Nat
  | [], _ => 0
  | c :: rest, target =>
      if target = 0 then 0
      else c.utf8Size + utf16Walk rest (target - utf16Len c)

/-- `PosMapper::position_to_offset` from `pos.rs`: look the line up directly
in `line_starts` (`LineNotFound` when absent), clamp the column to the line,
and return `line_start` plus the in-line byte offset, capped at the line
end. -/
def PosMapper.positionToOffset (m : PosMapper) (line : Nat) (character : Nat) :
    RunResult Nat :=
  match m.lineStarts.get? line with
  | none => .err (.lineNotFound line)
  | some lineStart =>
      let lineEnd := (m.lineStarts.get? (line + 1)).getD (byteLen m.text)
      let lineText := byteTake (byteDrop m.text lineStart) (lineEnd - lineStart)
      let charOffsetBytes :=
        match m.encoding with
        | .utf16 => utf16Walk lineText character
        | .utf8 => ((lineText.take character).map Char.utf8Size).sum
        | .utf32 => ((lineText.take character).map Char.utf8Size).sum
      .ok (min (lineStart + charOffsetBytes) lineEnd)

/-! ## `lsp.rs`: the live document store and `did_change`

The live store is `documents: DashMap<Url, Rope>` — each entry is a bare
`ropey::Rope`.  A rope is modelled as its list of Unicode scalar values
(`ropey` indexes by `char`). -/

/-- A `ropey::Rope`, modelled as its sequence of Unicode scalar values. -/
abbrev RopeM := List Char

/-- A client `Url`, opaque to `did_change`. -/
abbrev Uri := String

/-- An LSP `Position` (`line`, `character` are `u32` in the source). -/
structure PositionM where
  line : Nat
  character : Nat
deriving Repr, DecidableEq

/-- `ropey`'s line decomposition: lines end after each newline and keep it; a
rope always has one more line than it has newlines (the final line may be
empty). -/
def linesOf : List Char → List (List Char)
  | [] => [[]]
  | c :: rest =>
      let ls := linesOf rest
      if c = '\n' then [c] :: ls
      else
        match ls with
        | [] => [[c]]
        | l :: tl => (c :: l) :: tl

/-- `Rope::len_lines`. -/
def lenLines (rope : RopeM) : Nat := (linesOf rope).length

/-- `Rope::line(l)`: the `l`-th line, including its terminating newline. -/
def lineOf (rope : RopeM) (l : Nat) : List Char := (linesOf rope).getD l []

/-- `Rope::line_to_char(l)`: the char index of the start of line `l`. -/
def lineToChar (rope : RopeM) (l : Nat) : Nat :=
  (((linesOf rope).take l).map List.length).sum

/-- `RopeSlice::try_utf16_cu_to_char`: the char index containing the given
UTF-16 code-unit offset, `none` when the offset exceeds the slice's UTF-16
length. -/
def utf16CuToChar : List Char → Nat → Option Nat
  | _, 0 => some 0
  | [], _ + 1 => none
  | c :: rest, cu + 1 =>
      if utf16Len c ≤ cu + 1 then
        (utf16CuToChar rest (cu + 1 - utf16Len c)).map (fun n => n + 1)
      else some 0

/-- The local `position_to_offset` inside `Backend::did_change`: accept
one-past-the-last-line at column 0 as end of text; otherwise require the line
in range and convert the UTF-16 column within that line, failing (`none`) on a
line out of range or a column beyond the line's UTF-16 length. -/
def positionToOffsetRope (rope : RopeM) (pos : PositionM) : Option Nat :=
  if pos.line = lenLines rope ∧ pos.character = 0 then some rope.length
  else if pos.line < lenLines rope then
    (utf16CuToChar (lineOf rope pos.line) pos.character).map
      (fun colOffset => lineToChar rope pos.line + colOffset)
  else none

/-- One `TextDocumentContentChangeEvent`: an optional range and the new
text. -/
structure ChangeEvent where
  range : Option (PositionM × PositionM)
  text : String
deriving Repr, DecidableEq

/-- The body of `did_change`'s per-change loop: an incremental change whose
endpoints both convert splices the rope (`remove(s..e)` then `insert(s, …)`,
assuming `s ≤ e` as `ropey` requires); a failed conversion leaves the rope
untouched; a change without a range replaces the rope wholesale. -/
def applyChange (rope : RopeM) (change : ChangeEvent) : RopeM :=
  match change.range with
  | some (st, en) =>
      match positionToOffsetRope rope st, positionToOffsetRope rope en with
      | some s, some e => rope.take s ++ change.text.toList ++ rope.drop e
      | _, _ => rope
  | none => change.text.toList

/-- `Backend::did_change` restricted to the live store: if the URI is present,
fold the batch of changes over its rope in order; otherwise do nothing. -/
def didChangeStore (store : List (Uri × RopeM)) (uri : Uri) (changes : List ChangeEvent) :
    List (Uri × RopeM) :=
  if (store.find? (fun kv => kv.1 = uri)).isSome then
    store.map (fun kv => if kv.1 = uri then (kv.1, changes.foldl applyChange kv.2) else kv)
  else store

/-- A parsed inline link: label and destination. -/
structure LinkM where
  text : String
  url : String
deriving Repr, DecidableEq

/-- Splits at the first occurrence of `stop`, dropping it; `none` when `stop`
does not occur.  Helper for the link-extraction model. -/
def takeUntil (stop : Char) : List Char → Option (List Char × List Char)
  | [] => none
  | c :: rest =>
      if c = stop then some ([], rest)
      else (takeUntil stop rest).map (fun p => (c :: p.1, p.2))

/-- Fuel-indexed worker for `parseLinksM`. -/
def parseLinksAux : Nat → List Char → List LinkM
  | 0, _ => []
  | _ + 1, [] => []
  | fuel + 1, c :: rest =>
      if c = '[' then
        match takeUntil ']' rest with
        | some (label, '(' :: rest2) =>
            match takeUntil ')' rest2 with
            | some (url, rest3) =>
                { text := String.mk label, url := String.mk url } :: parseLinksAux fuel rest3
            | none => parseLinksAux fuel rest
        | _ => parseLinksAux fuel rest
      else parseLinksAux fuel rest

/-- Modelled from the spec: the Parser's inline-link extraction ("for each
inline link, `text` = concatenated text child, `url` = destination").  The
source delegates the Markdown walk to the external `pulldown_cmark` event
stream, which is not in `src/`; this model extracts each `[text](url)`
pattern. -/
def parseLinksM (cs : List Char) : List LinkM := parseLinksAux cs.length cs

/-- The slice of `Backend` that `did_change` can reach: the live store
(`documents: DashMap<Url, Rope>`) and, as the only link/metadata state the
server holds, the per-document link sets of the immutable `vault`
(projected to a URI-keyed list). -/
structure BackendM where
  documents : List (Uri × RopeM)
  vaultLinks : List (Uri × List LinkM)
deriving Repr, DecidableEq

/-- `Backend::did_change`: updates the live store only; the vault (and hence
every link/metadata set the server holds) is untouched. -/
def BackendM.didChange (b : BackendM) (uri : Uri) (changes : List ChangeEvent) : BackendM :=
  { b with documents := didChangeStore b.documents uri changes }

/-! ## `search.rs`: the BM25 corpus (`Corpus`, `Df`, `Idf`, `Avgdl`)

`f32` arithmetic is modelled exactly: document frequencies are `Nat`, scores
live in `ℝ` (`idf` applies the real logarithm), and `x / 0 = 0` is the Lean
convention.  `Avgdl` keeps an explicit float-style value so that the `0.0 /
0.0 = NaN` of an empty corpus is visible. -/

/-- An `f32` value that may be non-finite; only the cases reachable from
`Avgdl::from` are represented. -/
inductive F32Val where
  | num (q : ℚ)
  | posInf
  | negInf
  | nan
deriving Repr, DecidableEq

/-- `f32` division of finite values. -/
def f32Div (a c : ℚ) : F32Val :=
  if c = 0 then
    if a = 0 then .nan else if a > 0 then .posInf else .negInf
  else .num (a / c)

/-- The finite reading of a stored `f32`, used only by the finite-case
`score` below; the NaN-faithful scoring model is `scoreF`, which consumes the
stored value through `F32Val.toF32R` instead and propagates non-finite
values.  (`scoreF_eq_num_score` proves the two agree whenever the stored
`avgdl` is a positive number.) -/
def F32Val.toRat : F32Val → ℚ
  | .num q => q
  | _ => 0

/-- Rust `str::split_whitespace`, worker: split into maximal non-whitespace
runs (`acc` is the current word, reversed). -/
def splitWsAux : List Char → List Char → List (List Char)
  | [], acc => if acc.isEmpty then [] else [acc.reverse]
  | c :: rest, acc =>
      if c.isWhitespace then
        if acc.isEmpty then splitWsAux rest []
        else acc.reverse :: splitWsAux rest []
      else splitWsAux rest (c :: acc)

/-- Rust `str::split_whitespace` as a list of words. -/
def whitespaceWords (s : String) : List String :=
  (splitWsAux s.toList []).map (fun w => ⟨w⟩)

/-- `document.split_whitespace().count()`. -/
def wordCount (s : String) : Nat := (whitespaceWords s).length

/-- Modelled from the spec: the token stream of the external `nlprule`
tokenizer binary ("tokenize on whitespace"); on whitespace-separated words it
emits the words in order. -/
def tokStream (s : String) : List String := whitespaceWords s

/-- `Corpus::tokenize`: the token stream collected into a `HashSet<String>` —
deduplicated; the list represents the set's elements. -/
def tokenizeC (s : String) : List String := (tokStream s).dedup

/-- `*map.entry(term).or_default() += 1`: bump a term's count, inserting `1`
for an absent term. -/
def bump : List (String × Nat) → String → List (String × Nat)
  | [], k => [(k, 1)]
  | (k2, v) :: rest, k =>
      if k2 = k then (k2, v + 1) :: rest else (k2, v) :: bump rest k

/-- The per-document map built inside `Df::from`: each unique term of the
document, counted over the deduplicated token set. -/
def dfDoc (doc : String) : List (String × Nat) :=
  (tokenizeC doc).foldl bump []

/-- `Df::from`: the per-document maps combined by the rayon `reduce` with
`a.extend(b)` — `extend` **overwrites** entries for duplicate keys instead of
summing them, modelled by prepending the extending map (lookup prefers the
front). -/
def dfFrom (docs : List String) : List (String × Nat) :=
  (docs.map dfDoc).foldl (fun a c => c ++ a) []

/-- `Corpus::K1`. -/
noncomputable def K1 : ℝ := 1.6

/-- `Corpus::B`. -/
noncomputable def BconstBM25 : ℝ := 0.75

/-- The argument of the logarithm in `Idf::from`:
`(N − df + 0.5) / (df + 0.5) + 1`. -/
noncomputable def idfArg (n df : Nat) : ℝ :=
  ((n : ℝ) - (df : ℝ) + 1 / 2) / ((df : ℝ) + 1 / 2) + 1

/-- `Idf::from`: `ln` of `idfArg` for every term of the `df` map. -/
noncomputable def idfFrom (docs : List String) : List (String × ℝ) :=
  (dfFrom docs).map (fun kv => (kv.1, Real.log (idfArg docs.length kv.2)))

/-- `Avgdl::from(&Vec<String>)`: Σ whitespace word counts / |docs| in `f32`;
an empty list gives `0.0 / 0.0 = NaN`. -/
def avgdlFrom (docs : List String) : F32Val :=
  f32Div ((docs.map (fun d => (wordCount d : ℚ))).sum) ((docs.length : ℚ))

/-- `Corpus` from `search.rs`: the stripped documents, `avgdl`, `df` and
`idf` statistics (the tokenizer itself is the external model binary). -/
structure CorpusM where
  docs : List String
  avgdl : F32Val
  df : List (String × Nat)
  idf : List (String × ℝ)

/-- `Corpus::new`: store the documents, compute `avgdl`, `df`, `idf`.  The
function is total — it cannot fail, and on an empty list `avgdl` is NaN. -/
noncomputable def corpusNew (docs : List String) : CorpusM :=
  { docs := docs, avgdl := avgdlFrom docs, df := dfFrom docs,
    idf := idfFrom docs }

/-- The term-frequency map of `Corpus::score`: built from the **deduplicated**
`tokenize` output (each present term therefore maps to 1), merged with the
overwriting `extend`. -/
def tfFrom (document : String) : List (String × Nat) :=
  (tokenizeC document).foldl bump []

/-- Generic first-match lookup reused for the `Nat`- and `ℝ`-valued maps. -/
def alGetD {α : Type} (m : List (String × α)) (k : String) (d : α) : α :=
  ((m.find? (fun kv => kv.1 = k)).map (fun kv => kv.2)).getD d

/-- `Corpus::score` from `search.rs`, finite-case reading: `norm = K1·(1 − B
+ B·dl/avgdl)`; for every token of the (deduplicated) tokenized query, look
up its term frequency (0 when absent) and its idf (0 when absent) and sum
`idf · (tf·(K1+1)) / (tf + norm)`.  This exact-arithmetic reading is faithful
whenever the corpus's `avgdl` is a positive number — `scoreF_eq_num_score`
relates it to the full model `scoreF`, which also tracks the f32 non-finite
values arising from degenerate corpora. -/
noncomputable def score (c : CorpusM) (query document : String) : ℝ :=
  let documentLength : ℝ := (wordCount document : ℝ)
  let avgdl : ℝ := ((c.avgdl.toRat : ℚ) : ℝ)
  let norm : ℝ := K1 * (1 - BconstBM25 + BconstBM25 * documentLength / avgdl)
  let tf := tfFrom document
  ((tokenizeC query).map (fun term =>
    let frequency : ℝ := ((alGetD tf term 0 : ℕ) : ℝ)
    let idf : ℝ := alGetD c.idf term 0
    idf * ((frequency * (K1 + 1)) / (frequency + norm)))).sum

/-! ### The NaN-faithful `f32` scoring model

`score` above reads every stored `f32` as an exact number, which is only
right while all intermediates are finite.  `F32R` is an `f32` value over
exact reals — a number, an infinity, or NaN — with IEEE-style propagation
(`0·∞` and `0/0` are NaN, every operation on NaN is NaN), and `scoreF` is
`Corpus::score` computed over it.  Negative zero is not modelled: no score
intermediate produces one (all inputs are nonnegative counts and sums). -/

/-- An `f32` value over exact reals: a number, an infinity, or NaN. -/
inductive F32R where
  | num (x : ℝ)
  | posInf
  | negInf
  | nan

/-- `f32` addition. -/
noncomputable def F32R.add : F32R → F32R → F32R
  | .nan, _ => .nan
  | _, .nan => .nan
  | .num a, .num c => .num (a + c)
  | .num _, .posInf => .posInf
  | .num _, .negInf => .negInf
  | .posInf, .num _ => .posInf
  | .negInf, .num _ => .negInf
  | .posInf, .posInf => .posInf
  | .negInf, .negInf => .negInf
  | .posInf, .negInf => .nan
  | .negInf, .posInf => .nan

/-- `f32` subtraction. -/
noncomputable def F32R.sub : F32R → F32R → F32R
  | .nan, _ => .nan
  | _, .nan => .nan
  | .num a, .num c => .num (a - c)
  | .num _, .posInf => .negInf
  | .num _, .negInf => .posInf
  | .posInf, .num _ => .posInf
  | .negInf, .num _ => .negInf
  | .posInf, .posInf => .nan
  | .negInf, .negInf => .nan
  | .posInf, .negInf => .posInf
  | .negInf, .posInf => .negInf

open Classical in
/-- `f32` multiplication (`0 · ∞ = NaN`). -/
noncomputable def F32R.mul : F32R → F32R → F32R
  | .nan, _ => .nan
  | _, .nan => .nan
  | .num a, .num c => .num (a * c)
  | .num a, .posInf => if 0 < a then .posInf else if a < 0 then .negInf else .nan
  | .num a, .negInf => if 0 < a then .negInf else if a < 0 then .posInf else .nan
  | .posInf, .num c => if 0 < c then .posInf else if c < 0 then .negInf else .nan
  | .negInf, .num c => if 0 < c then .negInf else if c < 0 then .posInf else .nan
  | .posInf, .posInf => .posInf
  | .posInf, .negInf => .negInf
  | .negInf, .posInf => .negInf
  | .negInf, .negInf => .posInf

open Classical in
/-- `f32` division (`0 / 0 = NaN`, `x / 0 = ±∞`, `finite / ∞ = 0`,
`∞ / ∞ = NaN`). -/
noncomputable def F32R.div : F32R → F32R → F32R
  | .nan, _ => .nan
  | _, .nan => .nan
  | .num a, .num c =>
      if c = 0 then (if a = 0 then .nan else if 0 < a then .posInf else .negInf)
      else .num (a / c)
  | .num _, .posInf => .num 0
  | .num _, .negInf => .num 0
  | .posInf, .num c => if c < 0 then .negInf else .posInf
  | .negInf, .num c => if c < 0 then .posInf else .negInf
  | .posInf, .posInf => .nan
  | .posInf, .negInf => .nan
  | .negInf, .posInf => .nan
  | .negInf, .negInf => .nan

/-- The `f32` comparison `v >= 0.0`: false for NaN and `−∞`. -/
def F32R.isNonneg : F32R → Prop
  | .num x => 0 ≤ x
  | .posInf => True
  | .negInf => False
  | .nan => False

/-- Read the stored `avgdl` into the `f32` model. -/
noncomputable def F32Val.toF32R : F32Val → F32R
  | .num q => .num ((q : ℚ) : ℝ)
  | .posInf => .posInf
  | .negInf => .negInf
  | .nan => .nan

/-- The f32 iterator `.sum()`: a left fold of `+` starting at `0.0`. -/
noncomputable def F32R.sumList (l : List F32R) : F32R := l.foldl F32R.add (.num 0)

/-- `Corpus::score` computed in the `f32` model: identical structure to
`score`, but every arithmetic operation propagates infinities and NaN as
`f32` does.  In particular a NaN `avgdl` (empty corpus) makes `norm` — and
hence every nonempty-query score — NaN. -/
noncomputable def scoreF (c : CorpusM) (query document : String) : F32R :=
  let documentLength : F32R := .num ((wordCount document : ℕ) : ℝ)
  let avgdl : F32R := c.avgdl.toF32R
  let norm : F32R := (F32R.num K1).mul
    (((F32R.num 1).sub (.num BconstBM25)).add
      (((F32R.num BconstBM25).mul documentLength).div avgdl))
  let tf := tfFrom document
  F32R.sumList ((tokenizeC query).map (fun term =>
    let frequency : F32R := .num ((alGetD tf term 0 : ℕ) : ℝ)
    let idf : F32R := .num (alGetD c.idf term 0)
    idf.mul ((frequency.mul ((F32R.num K1).add (.num 1))).div
      (frequency.add norm))))

/-! ## `rank.rs`: the PageRank iteration

The graph-building loop resolves each document's links to indexed documents
and records, per resolvable link, one `(source, target)` edge — `inbound[dst]`
collects the sources pointing at `dst` and `outdeg[src]` counts the edges
leaving `src`.  Link resolution goes through the filesystem, so the graph is
taken as the resulting edge list; `f32` arithmetic is modelled exactly
over `ℚ`. -/

/-- The dampening factor `D = 0.85`, exact. -/
def Dconst : ℚ := 0.85

/-- `inbound[dst]`: the sources of the edges into `dst`, in edge order. -/
def inboundOf {n : ℕ} (edges : List (Fin n × Fin n)) (dst : Fin n) : List (Fin n) :=
  (edges.filter (fun e => e.2 = dst)).map (fun e => e.1)

/-- `outdeg[src]`: the number of edges leaving `src`. -/
def outdegOf {n : ℕ} (edges : List (Fin n × Fin n)) (src : Fin n) : Nat :=
  (edges.filter (fun e => e.1 = src)).length

/-- One iteration of the `rank` loop: teleport mass, dangling mass collected
from vertices with no outgoing edges, and the damped inbound contributions
`rank[src] / outdeg[src]`. -/
def stepRank {n : ℕ} (edges : List (Fin n × Fin n)) (rank : Fin n → ℚ) :
    Fin n → ℚ :=
  fun dst =>
    let teleport : ℚ := (1 - Dconst) / n
    let dangling : ℚ := ∑ i, if outdegOf edges i = 0 then rank i else 0
    let base : ℚ := teleport + Dconst * dangling / n
    base + Dconst *
      ((inboundOf edges dst).map (fun src => rank src / (outdegOf edges src : ℚ))).sum

/-- `Σ |rank[i] − next[i]|`. -/
def deltaOf {n : ℕ} (rank next : Fin n → ℚ) : ℚ := ∑ i, |rank i - next i|

/-- The `for _ in 0..num_iter` loop of `rank`: assign `rank = next` each turn
and stop early once `delta < tol`. -/
def rankLoop {n : ℕ} (edges : List (Fin n × Fin n)) (tol : ℚ) :
    Nat → (Fin n → ℚ) → (Fin n → ℚ)
  | 0, r => r
  | k + 1, r =>
      let next := stepRank edges r
      if deltaOf r next < tol then next else rankLoop edges tol k next

/-- The initial vector `rank[i] = 1 / N`. -/
def rankInit (n : ℕ) : Fin n → ℚ := fun _ => 1 / n

/-- `rank` from `rank.rs` on an already-built edge list. -/
def rankRun {n : ℕ} (edges : List (Fin n × Fin n)) (numIter : Nat) (tol : ℚ) :
    Fin n → ℚ :=
  rankLoop edges tol numIter (rankInit n)

/-! ## Theorems -/

/-! ### Lemmas about `Value.contains` -/

theorem containsAnyValue_iff (vs : List Value) (needle : String) :
    containsAnyValue vs needle = true ↔ ∃ v ∈ vs, v.contains needle = true := by
  induction vs with
  | nil => simp [containsAnyValue]
  | cons v rest ih =>
      simp [containsAnyValue, Bool.or_eq_true, ih]

theorem containsAnyPair_iff (m : List (Value × Value)) (needle : String) :
    containsAnyPair m needle = true ↔
      ∃ kv ∈ m, kv.1.contains needle = true ∨ kv.2.contains needle = true := by
  induction m with
  | nil => simp [containsAnyPair]
  | cons kv rest ih =>
      obtain ⟨k, v⟩ := kv
      simp [containsAnyPair, Bool.or_eq_true, ih]

/-- C8: `Query::matches` evaluates its tree as specified.  `Contains{key,
value}` holds iff the document's metadata has an entry at `key` whose `Value`
deep-contains the needle — string equality at `Real`/`String` leaves,
`Integer`/`Boolean` by parsing the needle, `Array` when any element contains
it, `Mapping` when any key or value contains it, `Null`/`Bad` never — and
`Not`/`And`/`Or`/`Xor` are exactly boolean negation, conjunction, disjunction
and exclusive-or of their children's matches. -/
theorem c8_query_matches_semantics :
    (∀ (doc : DocumentM) (key value : String),
        (Query.containsQ key value).matches doc = true ↔
          ∃ target, doc.getMetadata key = some target ∧ target.contains value = true)
    ∧ (∀ s n : String, (Value.real s).contains n = true ↔ s = n)
    ∧ (∀ s n : String, (Value.str s).contains n = true ↔ s = n)
    ∧ (∀ (k : Int) (n : String),
        (Value.integer k).contains n = true ↔ parseI64 n = some k)
    ∧ (∀ (b : Bool) (n : String),
        (Value.boolean b).contains n = true ↔ parseBool n = some b)
    ∧ (∀ (vs : List Value) (n : String),
        (Value.array vs).contains n = true ↔ ∃ v ∈ vs, v.contains n = true)
    ∧ (∀ (m : List (Value × Value)) (n : String),
        (Value.hashV m).contains n = true ↔
          ∃ kv ∈ m, kv.1.contains n = true ∨ kv.2.contains n = true)
    ∧ (∀ n : String, Value.nullV.contains n = false ∧ Value.badV.contains n = false)
    ∧ (∀ (q : Query) (doc : DocumentM), (Query.notQ q).matches doc = !(q.matches doc))
    ∧ (∀ (l r : Query) (doc : DocumentM),
        (Query.andQ l r).matches doc = (l.matches doc && r.matches doc))
    ∧ (∀ (l r : Query) (doc : DocumentM),
        (Query.orQ l r).matches doc = (l.matches doc || r.matches doc))
    ∧ (∀ (l r : Query) (doc : DocumentM),
        (Query.xorQ l r).matches doc = (l.matches doc).xor (r.matches doc)) := by
  refine ⟨?_, ?_, ?_, ?_, ?_, ?_, ?_, ?_, ?_, ?_, ?_, ?_⟩
  · intro doc key value
    simp only [Query.matches]
    cases h : doc.getMetadata key with
    | none => simp [h]
    | some target => simp [h]
  · intro s n; simp [Value.contains]
  · intro s n; simp [Value.contains]
  · intro k n
    simp only [Value.contains]
    cases h : parseI64 n with
    | none => simp [h]
    | some m => simp [h, eq_comm]
  · intro b n
    simp only [Value.contains]
    cases h : parseBool n with
    | none => simp [h]
    | some m => simp [h]
  · intro vs n
    simpa [Value.contains] using containsAnyValue_iff vs n
  · intro m n
    simpa [Value.contains] using containsAnyPair_iff m n
  · intro n; exact ⟨rfl, rfl⟩
  · intro q doc; rfl
  · intro l r doc; rfl
  · intro l r doc; rfl
  · intro l r doc; rfl

theorem decodeAux_id (fuel : Nat) :
    ∀ cs : List Char, cs.length ≤ fuel → (∀ c ∈ cs, ¬ c = '%') →
      decodeAux fuel cs = cs := by
  induction fuel with
  | zero => intro cs _ _; rfl
  | succ fuel ih =>
      intro cs hlen hpct
      cases cs with
      | nil => rfl
      | cons c rest =>
          have hc : ¬ c = '%' := hpct c (List.mem_cons_self c rest)
          have hrest : ∀ x ∈ rest, ¬ x = '%' :=
            fun x hx => hpct x (List.mem_cons_of_mem c hx)
          have hlen2 : rest.length ≤ fuel := Nat.le_of_succ_le_succ hlen
          simp [decodeAux, hc, ih rest hlen2 hrest]

theorem hexVal_pctHexDigit : ∀ n < 16, hexVal (pctHexDigit n) = some n := by
  decide

theorem isFragment_lt_128 (c : Char) (h : isFragment c = true) : c.toNat < 128 := by
  simp only [isFragment, Bool.or_eq_true, decide_eq_true_eq] at h
  rcases h with ((((((h | h) | h) | h) | h) | h) | h)
  all_goals first
    | (subst h; decide)
    | omega

theorem encChar_length_pos (c : Char) : 0 < (encChar c).length := by
  unfold encChar
  by_cases h : isFragment c <;> simp [h]

theorem encodeList_append (a b : List Char) :
    encodeList (a ++ b) = encodeList a ++ encodeList b := by
  induction a with
  | nil => rfl
  | cons c rest ih => simp [encodeList, ih]

theorem encodeList_eq_nil (cs : List Char) (h : encodeList cs = []) : cs = [] := by
  cases cs with
  | nil => rfl
  | cons c rest =>
      exfalso
      simp only [encodeList] at h
      rcases List.append_eq_nil.mp h with ⟨h1, _⟩
      have := encChar_length_pos c
      rw [h1] at this
      simp at this

theorem decodeAux_encodeList (fuel : Nat) :
    ∀ cs : List Char, (encodeList cs).length ≤ fuel →
      (∀ c ∈ cs, c.toNat < 128 ∧ ¬ c = '%') →
      decodeAux fuel (encodeList cs) = cs := by
  induction fuel with
  | zero =>
      intro cs hlen _
      have : encodeList cs = [] := List.length_eq_zero.mp (Nat.le_zero.mp hlen)
      rw [this, encodeList_eq_nil cs this]
      rfl
  | succ fuel ih =>
      intro cs hlen hok
      cases cs with
      | nil => rfl
      | cons c rest =>
          have hc := hok c (List.mem_cons_self c rest)
          have hrest : ∀ x ∈ rest, x.toNat < 128 ∧ ¬ x = '%' :=
            fun x hx => hok x (List.mem_cons_of_mem c hx)
          by_cases hf : isFragment c = true
          · have hdiv : c.toNat / 16 < 16 := by
              have := isFragment_lt_128 c hf
              omega
            have hmod : c.toNat % 16 < 16 := Nat.mod_lt _ (by omega)
            have h1 := hexVal_pctHexDigit (c.toNat / 16) hdiv
            have h2 := hexVal_pctHexDigit (c.toNat % 16) hmod
            have henc : encodeList (c :: rest) =
                '%' :: pctHexDigit (c.toNat / 16) :: pctHexDigit (c.toNat % 16) ::
                  encodeList rest := by
              simp [encodeList, encChar, hf]
            have hlen2 : (encodeList rest).length ≤ fuel := by
              rw [henc] at hlen
              simp at hlen
              omega
            have hchar : Char.ofNat (16 * (c.toNat / 16) + c.toNat % 16) = c := by
              rw [Nat.div_add_mod c.toNat 16]
              exact Char.ofNat_toNat c
            rw [henc]
            simp [decodeAux, h1, h2, hchar, ih rest hlen2 hrest]
          · have henc : encodeList (c :: rest) = c :: encodeList rest := by
              simp [encodeList, encChar, hf]
            have hlen2 : (encodeList rest).length ≤ fuel := by
              rw [henc] at hlen
              simp at hlen
              omega
            rw [henc]
            simp [decodeAux, hc.2, ih rest hlen2 hrest]

theorem decodeList_encodeList (cs : List Char)
    (hok : ∀ c ∈ cs, c.toNat < 128 ∧ ¬ c = '%') :
    decodeList (encodeList cs) = cs :=
  decodeAux_encodeList (encodeList cs).length cs Nat.le.refl hok

theorem decodeList_id (cs : List Char) (h : ∀ c ∈ cs, ¬ c = '%') :
    decodeList cs = cs :=
  decodeAux_id cs.length cs Nat.le.refl h

theorem encodeRevList_append (a b : List Char) :
    encodeRevList (a ++ b) = encodeRevList a ++ encodeRevList b := by
  induction a with
  | nil => rfl
  | cons c rest ih => simp [encodeRevList, ih]

theorem reverse_encodeList (cs : List Char) :
    (encodeList cs).reverse = encodeRevList cs.reverse := by
  induction cs with
  | nil => rfl
  | cons c rest ih =>
      simp [encodeList, List.reverse_append, ih, encodeRevList_append, encodeRevList]

theorem takeWhile_append_of_all (p : Char → Bool) (a b : List Char)
    (h : ∀ x ∈ a, p x = true) :
    List.takeWhile p (a ++ b) = a ++ List.takeWhile p b := by
  induction a with
  | nil => rfl
  | cons c rest ih =>
      have hc := h c (List.mem_cons_self c rest)
      simp [List.takeWhile, hc, ih (fun x hx => h x (List.mem_cons_of_mem c hx))]

theorem stop_not_mem_encChar (s : Char) (hnp : ¬ s = '%')
    (hhex : ∀ n < 16, ¬ pctHexDigit n = s) (c : Char) (hc : ¬ c = s) :
    s ∉ encChar c := by
  intro hmem
  by_cases hf : isFragment c = true
  · have hdiv : c.toNat / 16 < 16 := by
      have := isFragment_lt_128 c hf
      omega
    have hmod : c.toNat % 16 < 16 := Nat.mod_lt _ (by omega)
    simp [encChar, hf] at hmem
    rcases hmem with h | h | h
    · exact hnp h
    · exact hhex _ hdiv h.symm
    · exact hhex _ hmod h.symm
  · simp [encChar, hf] at hmem
    exact hc hmem.symm

theorem takeWhile_encodeRevList (q : Char → Bool)
    (htrue : ∀ c, q c = true → ∀ x ∈ encChar c, q x = true)
    (hfalse : ∀ c, q c = false → encChar c = [c]) (cs : List Char) :
    List.takeWhile q (encodeRevList cs) = encodeRevList (List.takeWhile q cs) := by
  induction cs with
  | nil => rfl
  | cons c rest ih =>
      cases hc : q c with
      | true =>
          have hall : ∀ x ∈ (encChar c).reverse, q x = true := fun x hx =>
            htrue c hc x (List.mem_reverse.mp hx)
          simp only [encodeRevList]
          rw [takeWhile_append_of_all q _ _ hall, List.takeWhile_cons]
          simp [hc, ih, encodeRevList]
      | false =>
          have hchar := hfalse c hc
          simp only [encodeRevList, hchar, List.reverse_singleton]
          rw [List.singleton_append, List.takeWhile_cons, List.takeWhile_cons]
          simp [hc, encodeRevList]

/-- A `takeWhile`-based stopper lemma for the two predicates used by
`nameRev` and `fileExtension`: encoding commutes with splitting at `/` and at
`.` because neither character is ever emitted by an escape. -/
theorem takeWhile_ne_encodeRevList (s : Char) (hs : encChar s = [s])
    (hnp : ¬ s = '%') (hhex : ∀ n < 16, ¬ pctHexDigit n = s) (cs : List Char) :
    List.takeWhile (fun c => c ≠ s) (encodeRevList cs) =
      encodeRevList (List.takeWhile (fun c => c ≠ s) cs) := by
  refine takeWhile_encodeRevList _ ?_ ?_ cs
  · intro c hc x hx
    simp only [ne_eq, decide_not, Bool.not_eq_true', decide_eq_false_iff_not] at hc ⊢
    intro hxs
    exact stop_not_mem_encChar s hnp hhex c hc (hxs ▸ hx)
  · intro c hc
    simp only [ne_eq, decide_not, Bool.not_eq_false] at hc
    have : c = s := by simpa using hc
    rw [this, hs]

theorem nameRev_encodeList (cs : List Char) :
    nameRev (encodeList cs) = encodeRevList (nameRev cs) := by
  unfold nameRev
  rw [reverse_encodeList]
  exact takeWhile_ne_encodeRevList '/' (by decide) (by decide) (by decide) cs.reverse

theorem encodeRevList_eq_nil (cs : List Char) (h : encodeRevList cs = []) :
    cs = [] := by
  cases cs with
  | nil => rfl
  | cons c rest =>
      exfalso
      simp only [encodeRevList] at h
      rcases List.append_eq_nil.mp h with ⟨h1, _⟩
      have := encChar_length_pos c
      rw [← List.length_reverse (encChar c), h1] at this
      simp at this

theorem takeWhile_length_le_local (p : Char → Bool) (l : List Char) :
    (List.takeWhile p l).length ≤ l.length := by
  induction l with
  | nil => simp
  | cons a l ih =>
      rw [List.takeWhile_cons]
      split
      · simpa using ih
      · simp

theorem dropWhile_head_false (p : Char → Bool) (l : List Char) (x : Char)
    (xs : List Char) (h : List.dropWhile p l = x :: xs) : p x = false := by
  have h2 := List.head_dropWhile_not p l (by simp [h])
  simp only [h] at h2
  simpa using h2

theorem takeWhile_two_structure (q : Char → Bool) (l : List Char) (a b : Char)
    (h : List.takeWhile q l = [a, b])
    (h1 : ¬ (List.takeWhile q l).length = l.length)
    (h2 : ¬ (List.takeWhile q l).length + 1 = l.length) :
    ∃ z tl, l = a :: b :: z :: tl ∧ q z = false ∧ tl ≠ [] := by
  have hsplit := List.takeWhile_append_dropWhile (p := q) (l := l)
  rcases hdrop : List.dropWhile q l with _ | ⟨z, tl⟩
  · exfalso
    rw [hdrop, List.append_nil] at hsplit
    exact h1 (congrArg List.length hsplit)
  · refine ⟨z, tl, ?_, dropWhile_head_false q l z tl hdrop, ?_⟩
    · rw [← hsplit, h, hdrop]
      rfl
    · intro htl
      apply h2
      subst htl
      rw [h]
      conv_rhs => rw [← hsplit, h, hdrop]
      rfl

/-- Characterization of `fileExtension p = some ['m', 'd']`: the reversed
final component reads `d`, `m`, `.` and then a nonempty remainder. -/
theorem fileExtension_md_iff (p : String) :
    fileExtension p = some ['m', 'd'] ↔
      ∃ tl, nameRev p.toList = 'd' :: 'm' :: '.' :: tl ∧ tl ≠ [] := by
  simp only [fileExtension]
  constructor
  · intro h
    split_ifs at h with h1 h2
    · have hext : List.takeWhile notDotB (nameRev p.toList) = ['d', 'm'] := by
        have h3 := Option.some.inj h
        have h4 := congrArg List.reverse h3
        rw [List.reverse_reverse] at h4
        rw [h4]
        rfl
      obtain ⟨z, tl, hl, hz, htl⟩ :=
        takeWhile_two_structure notDotB (nameRev p.toList) 'd' 'm' hext h1 h2
      have hzdot : z = '.' := by simpa [notDotB] using hz
      exact ⟨tl, by rw [hl, hzdot], htl⟩
  · rintro ⟨tl, htl, hne⟩
    rw [htl]
    have hext : List.takeWhile notDotB ('d' :: 'm' :: '.' :: tl) = ['d', 'm'] := by
      rw [List.takeWhile_cons, List.takeWhile_cons, List.takeWhile_cons]
      simp [notDotB]
    rw [hext]
    have hne2 : tl.length ≠ 0 := fun h0 => hne (List.length_eq_zero.mp h0)
    have hc1 : ¬ (['d', 'm'] : List Char).length = ('d' :: 'm' :: '.' :: tl).length := by
      simp only [List.length_cons, List.length_nil]
      omega
    have hc2 : ¬ (['d', 'm'] : List Char).length + 1 =
        ('d' :: 'm' :: '.' :: tl).length := by
      simp only [List.length_cons, List.length_nil]
      omega
    rw [if_neg hc1, if_neg hc2]
    rfl

theorem fileExtension_encode_md (p : String)
    (h : fileExtension p = some ['m', 'd']) :
    fileExtension ⟨encodeList p.toList⟩ = some ['m', 'd'] := by
  rw [fileExtension_md_iff] at h ⊢
  obtain ⟨tl, htl, hne⟩ := h
  have hlist : (⟨encodeList p.toList⟩ : String).toList = encodeList p.toList := rfl
  rw [hlist, nameRev_encodeList, htl]
  have hd : encChar 'd' = ['d'] := by decide
  have hm : encChar 'm' = ['m'] := by decide
  have hdot : encChar '.' = ['.'] := by decide
  refine ⟨encodeRevList tl, ?_, ?_⟩
  · simp [encodeRevList, hd, hm, hdot]
  · intro hnil
    exact hne (encodeRevList_eq_nil tl hnil)

theorem toList_mk (l : List Char) : (⟨l⟩ : String).toList = l := rfl

theorem markdownPathNew_of_gate (canon : String → Option String)
    (basePath path : String) (hgate : fileExtension path = some ['m', 'd']) :
    markdownPathNew canon basePath path =
      match canon (joinPath ⟨decodeList basePath.toList⟩ ⟨decodeList path.toList⟩) with
      | some c =>
          PathResult.okP
            { basePath := ⟨decodeList basePath.toList⟩
              leaf := ⟨decodeList path.toList⟩
              canonicalPath := c }
      | none =>
          PathResult.canonicalisationFailed
            (joinPath ⟨decodeList basePath.toList⟩ ⟨decodeList path.toList⟩) := by
  unfold markdownPathNew
  rw [if_pos hgate]

/-- C5 (amended): two `MarkdownPath`s are equal iff their canonical paths are
equal; percent-encoding the base and/or the leaf before construction (for
ASCII, `%`-free inputs) yields the very same `MarkdownPath` — hence equal
hashes; but the derived `Hash` implementation feeds all three fields
(`base_path`, `leaf`, `canonical_path`) to the hasher, not the canonical path
only, so two equal paths with different base/leaf decompositions feed
different data. -/
theorem c5_path_identity (canon : String → Option String) (base leaf : String)
    (p : MarkdownPath) (hb : ∀ c ∈ base.toList, c.toNat < 128 ∧ ¬ c = '%')
    (hl : ∀ c ∈ leaf.toList, c.toNat < 128 ∧ ¬ c = '%')
    (hok : markdownPathNew canon base leaf = PathResult.okP p) :
    (∀ q r : MarkdownPath, MarkdownPath.pathEq q r ↔ q.canonicalPath = r.canonicalPath)
    ∧ (∀ q r : MarkdownPath, hashInput q = hashInput r ↔
        q.basePath = r.basePath ∧ q.leaf = r.leaf ∧ q.canonicalPath = r.canonicalPath)
    ∧ markdownPathNew canon ⟨encodeList base.toList⟩ ⟨encodeList leaf.toList⟩ =
        PathResult.okP p := by
  refine ⟨fun q r => Iff.rfl, fun q r => by simp [hashInput], ?_⟩
  by_cases hgate : fileExtension leaf = some ['m', 'd']
  · have hgate2 := fileExtension_encode_md leaf hgate
    have e1 : decodeList (encodeList base.data) = base.data :=
      decodeList_encodeList base.data hb
    have e2 : decodeList (encodeList leaf.data) = leaf.data :=
      decodeList_encodeList leaf.data hl
    have e3 : decodeList base.data = base.data :=
      decodeList_id base.data (fun c hc => (hb c hc).2)
    have e4 : decodeList leaf.data = leaf.data :=
      decodeList_id leaf.data (fun c hc => (hl c hc).2)
    rw [markdownPathNew_of_gate canon base leaf hgate] at hok
    rw [markdownPathNew_of_gate canon _ _ hgate2]
    simp only [String.toList, toList_mk] at hok ⊢
    rw [e1, e2]
    rw [e3, e4] at hok
    exact hok
  · exfalso
    unfold markdownPathNew at hok
    rw [if_neg hgate] at hok
    exact PathResult.noConfusion hok

/-- C5 witness: `c5_path_identity` at `base = "/v"`, `leaf = "x y.md"` (the
space is percent-encoded to `%20`) under the identity canonicalizer. -/
theorem c5_witness :
    markdownPathNew canonId ⟨encodeList "/v".toList⟩ ⟨encodeList "x y.md".toList⟩ =
      PathResult.okP
        { basePath := "/v", leaf := "x y.md", canonicalPath := "/v/x y.md" } :=
  (c5_path_identity canonId "/v" "x y.md"
      { basePath := "/v", leaf := "x y.md", canonicalPath := "/v/x y.md" }
      (by decide) (by decide) (by decide)).2.2

/-- C5 counterexample: `new("/v", "x.md")` and `new("/", "v/x.md")` produce
`MarkdownPath`s with the same canonical path — equal under `PartialEq` — yet
the derived `Hash` feeds different `base_path`/`leaf` fields to the hasher, so
the hash is not derived from the canonical path only. -/
theorem c5_counterexample :
    markdownPathNew canonId "/v" "x.md" =
      PathResult.okP
        { basePath := "/v", leaf := "x.md", canonicalPath := "/v/x.md" }
    ∧ markdownPathNew canonId "/" "v/x.md" =
      PathResult.okP
        { basePath := "/", leaf := "v/x.md", canonicalPath := "/v/x.md" }
    ∧ MarkdownPath.pathEq
        { basePath := "/v", leaf := "x.md", canonicalPath := "/v/x.md" }
        { basePath := "/", leaf := "v/x.md", canonicalPath := "/v/x.md" }
    ∧ hashInput { basePath := "/v", leaf := "x.md", canonicalPath := "/v/x.md" } ≠
        hashInput { basePath := "/", leaf := "v/x.md", canonicalPath := "/v/x.md" } :=
  ⟨by decide, by decide, rfl, by decide⟩

/-- C4: `offset_to_position` panics for offsets on the first line of the
text.  On `"a\nb"` under UTF-16, byte offset `0` (≤ the length `3`) makes
`partition_point` return `0`, and `0 - 1` underflows `usize`, aborting the
program instead of returning `(0, 0)`; offsets on later lines convert, and
only offsets beyond the length give `OffsetOutOfRange`. -/
theorem c4_first_line_offset_panics :
    (PosMapper.new ("a\nb".toList) Enc.utf16).offsetToPosition 0 = RunResult.panicked
    ∧ (PosMapper.new ("a\nb".toList) Enc.utf16).offsetToPosition 2 = RunResult.ok (1, 0)
    ∧ (PosMapper.new ("a\nb".toList) Enc.utf16).offsetToPosition 9 =
        RunResult.err (PositionErrorM.offsetOutOfRange 9 3) := by
  decide

/-- C3: the round trip `position_to_offset ∘ offset_to_position` does not
return the original offset.  On `"ab\ncd\nef"` under UTF-16, byte offset `4`
maps to `(1, 1)`, but `(1, 1)` maps back to `7`: `offset_to_position` reports
the row as `partition_point` while `position_to_offset` indexes `line_starts`
(which lacks the offset of the first line) directly, one line later.  On the
last line (`"ab\ncd"`, offset `4` → `(1, 1)`) the reverse direction even fails
with `LineNotFound`. -/
theorem c3_roundtrip_fails :
    (PosMapper.new ("ab\ncd\nef".toList) Enc.utf16).offsetToPosition 4 =
        RunResult.ok (1, 1)
    ∧ (PosMapper.new ("ab\ncd\nef".toList) Enc.utf16).positionToOffset 1 1 =
        RunResult.ok 7
    ∧ (PosMapper.new ("ab\ncd".toList) Enc.utf16).offsetToPosition 4 =
        RunResult.ok (1, 1)
    ∧ (PosMapper.new ("ab\ncd".toList) Enc.utf16).positionToOffset 1 1 =
        RunResult.err (PositionErrorM.lineNotFound 1) := by
  decide

/-! ### Lemmas about the live store -/

theorem alGet_map_update (store : List (Uri × RopeM)) (uri : Uri) (g : RopeM → RopeM) :
    alGet (store.map (fun kv => if kv.1 = uri then (kv.1, g kv.2) else kv)) uri =
      (alGet store uri).map g := by
  induction store with
  | nil => rfl
  | cons kv rest ih =>
      by_cases hk : kv.1 = uri
      · simp [alGet, List.find?, hk]
      · simpa [alGet, List.find?, hk] using ih

theorem alGet_didChangeStore_present (store : List (Uri × RopeM)) (uri : Uri)
    (changes : List ChangeEvent) (rope : RopeM) (h : alGet store uri = some rope) :
    alGet (didChangeStore store uri changes) uri =
      some (changes.foldl applyChange rope) := by
  have hsome : (store.find? (fun kv => kv.1 = uri)).isSome := by
    cases hs : store.find? (fun kv => kv.1 = uri) with
    | none => simp [alGet, hs] at h
    | some kv => simp
  rw [didChangeStore, if_pos hsome, alGet_map_update store uri (changes.foldl applyChange), h]
  rfl

theorem didChangeStore_absent (store : List (Uri × RopeM)) (uri : Uri)
    (changes : List ChangeEvent) (h : alGet store uri = none) :
    didChangeStore store uri changes = store := by
  have hf : store.find? (fun kv => kv.1 = uri) = none := by
    cases hs : store.find? (fun kv => kv.1 = uri) with
    | none => rfl
    | some kv => simp [alGet, hs] at h
  simp [didChangeStore, hf]

/-- C10: in `did_change`, an incremental change whose start or end position
fails to convert to a rope offset is discarded with the rope left unchanged by
that change; the batch is folded in order, so later changes still apply; and a
`didChange` for a URI absent from the live store leaves the store unchanged. -/
theorem c10_didchange_error_handling :
    (∀ (rope : RopeM) (st en : PositionM) (txt : String),
        positionToOffsetRope rope st = none ∨ positionToOffsetRope rope en = none →
        applyChange rope { range := some (st, en), text := txt } = rope)
    ∧ (∀ (store : List (Uri × RopeM)) (uri : Uri) (changes : List ChangeEvent)
        (rope : RopeM), alGet store uri = some rope →
        alGet (didChangeStore store uri changes) uri =
          some (changes.foldl applyChange rope))
    ∧ (∀ (store : List (Uri × RopeM)) (uri : Uri) (changes : List ChangeEvent),
        alGet store uri = none → didChangeStore store uri changes = store) := by
  refine ⟨?_, alGet_didChangeStore_present, didChangeStore_absent⟩
  intro rope st en txt h
  cases hs : positionToOffsetRope rope st with
  | none => simp [applyChange, hs]
  | some s =>
      cases he : positionToOffsetRope rope en with
      | none => simp [applyChange, hs, he]
      | some e =>
          cases h with
          | inl h1 => exact absurd hs (h1 ▸ Option.some_ne_none s ∘ Eq.symm)
          | inr h2 => exact absurd he (h2 ▸ Option.some_ne_none e ∘ Eq.symm)

/-- C10 witness: `c10_didchange_error_handling` applied to a rope `"ab"` with
an out-of-range start line, a present URI with a full-replacement batch, and
an absent URI. -/
theorem c10_witness :
    applyChange ("ab".toList)
        { range := some (⟨5, 0⟩, ⟨0, 0⟩), text := "z" } = "ab".toList
    ∧ alGet (didChangeStore [("u", "x".toList)] "u" [{ range := none, text := "y" }]) "u" =
        some ([({ range := none, text := "y" } : ChangeEvent)].foldl applyChange ("x".toList))
    ∧ didChangeStore [("u", "x".toList)] "v" [{ range := none, text := "y" }] =
        [("u", "x".toList)] :=
  ⟨c10_didchange_error_handling.1 ("ab".toList) ⟨5, 0⟩ ⟨0, 0⟩ "z" (Or.inl (by decide)),
   c10_didchange_error_handling.2.1 [("u", "x".toList)] "u"
     [{ range := none, text := "y" }] ("x".toList) (by decide),
   c10_didchange_error_handling.2.2 [("u", "x".toList)] "v"
     [{ range := none, text := "y" }] (by decide)⟩

/-- C9 counterexample: a `didChange` replacing a stored rope `"x"` with
`"[a](./b.md)"` updates the rope, but the only links the server holds for the
URI (the vault's, here empty) are not the links parsed from the post-change
rope — the live store holds bare ropes and nothing is re-parsed. -/
theorem c9_counterexample :
    (BackendM.didChange
        { documents := [("u", "x".toList)], vaultLinks := [("u", [])] } "u"
        [{ range := none, text := "[a](./b.md)" }]).documents =
      [("u", "[a](./b.md)".toList)]
    ∧ parseLinksM ("[a](./b.md)".toList) = [{ text := "a", url := "./b.md" }]
    ∧ ¬ (alGet (BackendM.didChange
          { documents := [("u", "x".toList)], vaultLinks := [("u", [])] } "u"
          [{ range := none, text := "[a](./b.md)" }]).vaultLinks "u" =
        some (parseLinksM ("[a](./b.md)".toList))) := by
  refine ⟨by decide, by decide, by decide⟩

/-- C9 (amended): after `did_change` returns, the store's entry for a URI
present in the live store holds the rope with all changes of the batch applied
in order; the store holds only ropes, and the vault's links/metadata — the
only link/metadata state the server holds — are left untouched, so no
re-parse from the post-change rope occurs. -/
theorem c9_didchange_updates_rope_only (b : BackendM) (uri : Uri)
    (changes : List ChangeEvent) (rope : RopeM)
    (h : alGet b.documents uri = some rope) :
    alGet (b.didChange uri changes).documents uri =
      some (changes.foldl applyChange rope)
    ∧ (b.didChange uri changes).vaultLinks = b.vaultLinks :=
  ⟨alGet_didChangeStore_present b.documents uri changes rope h, rfl⟩

/-! ### Lemmas about the BM25 statistics -/

theorem alGet_bump_ne (m : List (String × Nat)) (k k2 : String) (h : ¬ k2 = k) :
    alGet (bump m k) k2 = alGet m k2 := by
  have hsym : ¬ k = k2 := fun he => h he.symm
  induction m with
  | nil => simp [bump, alGet, List.find?, hsym]
  | cons kv rest ih =>
      obtain ⟨k3, v⟩ := kv
      by_cases h3 : k3 = k
      · subst h3
        simp [bump, alGet, List.find?, hsym]
      · by_cases h4 : k3 = k2
        · subst h4
          simp [bump, alGet, List.find?, h3]
        · simp only [bump, if_neg h3]
          simp only [alGet, List.find?] at ih ⊢
          simp [h4, ih]

theorem bump_fresh (m : List (String × Nat)) (k : String)
    (h : alGet m k = none) : bump m k = m ++ [(k, 1)] := by
  induction m with
  | nil => rfl
  | cons kv rest ih =>
      obtain ⟨k2, v⟩ := kv
      by_cases h2 : k2 = k
      · subst h2
        simp [alGet, List.find?] at h
      · have h3 : alGet rest k = none := by
          simpa [alGet, List.find?, h2] using h
        simp [bump, h2, ih h3]

theorem alGet_append_none (m m2 : List (String × Nat)) (k : String)
    (h1 : alGet m k = none) (h2 : alGet m2 k = none) :
    alGet (m ++ m2) k = none := by
  induction m with
  | nil => simpa using h2
  | cons kv rest ih =>
      obtain ⟨k2, v⟩ := kv
      by_cases h3 : k2 = k
      · subst h3
        simp [alGet, List.find?] at h1
      · have h4 : alGet rest k = none := by
          simpa [alGet, List.find?, h3] using h1
        simpa [alGet, List.find?, h3] using ih h4

theorem foldl_bump_ones (l : List String) :
    l.Nodup → ∀ m : List (String × Nat), (∀ k ∈ l, alGet m k = none) →
      (∀ p ∈ m, p.2 = 1) → ∀ p ∈ l.foldl bump m, p.2 = 1 := by
  induction l with
  | nil => intro _ m _ hm p hp; exact hm p hp
  | cons k tail ih =>
      intro hnd m hfresh hones p hp
      have hndk := (List.nodup_cons.mp hnd).1
      have hndt := (List.nodup_cons.mp hnd).2
      have hkm : alGet m k = none := hfresh k (List.mem_cons_self k tail)
      have hb : bump m k = m ++ [(k, 1)] := bump_fresh m k hkm
      refine ih hndt (bump m k) ?_ ?_ p ?_
      · intro k2 hk2
        have hne : ¬ k2 = k := fun he => hndk (he ▸ hk2)
        rw [alGet_bump_ne m k k2 hne]
        exact hfresh k2 (List.mem_cons_of_mem k hk2)
      · intro q hq
        rw [hb] at hq
        rcases List.mem_append.mp hq with hq | hq
        · exact hones q hq
        · simp at hq
          rw [hq]
      · simpa [List.foldl_cons] using hp

theorem dfDoc_val (d : String) (p : String × Nat) (hp : p ∈ dfDoc d) :
    p.2 = 1 := by
  refine foldl_bump_ones (tokenizeC d) ?_ [] ?_ ?_ p hp
  · exact List.nodup_dedup _
  · intro k _; rfl
  · intro q hq; simp at hq

theorem mem_foldl_append {α : Type} (L : List (List α)) :
    ∀ (init : List α) (p : α),
      p ∈ L.foldl (fun a c => c ++ a) init ↔ p ∈ init ∨ ∃ x ∈ L, p ∈ x := by
  induction L with
  | nil => intro init p; simp
  | cons x L ih =>
      intro init p
      rw [List.foldl_cons, ih (x ++ init) p]
      simp [List.mem_append]
      tauto

theorem mem_dfFrom (docs : List String) (p : String × Nat)
    (hp : p ∈ dfFrom docs) : ∃ d ∈ docs, p ∈ dfDoc d := by
  unfold dfFrom at hp
  rcases (mem_foldl_append (docs.map dfDoc) [] p).mp hp with h | ⟨x, hx, hpx⟩
  · simp at h
  · rcases List.mem_map.mp hx with ⟨d, hd, rfl⟩
    exact ⟨d, hd, hpx⟩

theorem dfFrom_val (docs : List String) (p : String × Nat)
    (hp : p ∈ dfFrom docs) : p.2 = 1 ∧ docs ≠ [] := by
  obtain ⟨d, hd, hpd⟩ := mem_dfFrom docs p hp
  exact ⟨dfDoc_val d p hpd, fun h => by simp [h] at hd⟩

theorem idf_val_nonneg (docs : List String) (p : String × ℝ)
    (hp : p ∈ idfFrom docs) : 0 ≤ p.2 := by
  unfold idfFrom at hp
  rcases List.mem_map.mp hp with ⟨kv, hkv, rfl⟩
  obtain ⟨hone, hne⟩ := dfFrom_val docs kv hkv
  have hN : 1 ≤ docs.length := List.length_pos.mpr hne
  have hN2 : (1 : ℝ) ≤ (docs.length : ℝ) := by exact_mod_cast hN
  refine Real.log_nonneg ?_
  rw [hone]
  unfold idfArg
  have hnum : (0 : ℝ) ≤ ((docs.length : ℝ) - (1 : ℕ) + 1 / 2) := by
    push_cast
    linarith
  have hden : (0 : ℝ) < ((1 : ℕ) : ℝ) + 1 / 2 := by norm_num
  have := div_nonneg hnum (le_of_lt hden)
  linarith

theorem avgdl_toRat_nonneg (docs : List String) :
    (0 : ℚ) ≤ (avgdlFrom docs).toRat := by
  unfold avgdlFrom f32Div
  have hsum : (0 : ℚ) ≤ (docs.map (fun d => (wordCount d : ℚ))).sum := by
    refine List.sum_nonneg ?_
    intro x hx
    rcases List.mem_map.mp hx with ⟨d, _, rfl⟩
    positivity
  by_cases hlen : (docs.length : ℚ) = 0
  · rw [if_pos hlen]
    by_cases hz : (docs.map (fun d => (wordCount d : ℚ))).sum = 0
    · rw [if_pos hz]; rfl
    · rw [if_neg hz, if_pos (lt_of_le_of_ne hsum (Ne.symm hz))]; rfl
  · rw [if_neg hlen]
    have hpos : (0 : ℚ) < (docs.length : ℚ) :=
      lt_of_le_of_ne (by positivity) (Ne.symm hlen)
    exact div_nonneg hsum (le_of_lt hpos)

theorem norm_nonneg_of (dl avg : ℝ) (hdl : 0 ≤ dl) (havg : 0 ≤ avg) :
    0 ≤ K1 * (1 - BconstBM25 + BconstBM25 * dl / avg) := by
  have hq : 0 ≤ dl / avg := div_nonneg hdl havg
  have h2 : (0 : ℝ) ≤ BconstBM25 * dl / avg := by
    rw [mul_div_assoc]
    exact mul_nonneg (by unfold BconstBM25; norm_num) hq
  have h1 : (0 : ℝ) ≤ 1 - BconstBM25 := by unfold BconstBM25; norm_num
  have hk : (0 : ℝ) ≤ K1 := by unfold K1; norm_num
  nlinarith

theorem alGetD_nonneg_of_mem_nonneg (m : List (String × ℝ)) (k : String)
    (h : ∀ p ∈ m, 0 ≤ p.2) : 0 ≤ alGetD m k 0 := by
  unfold alGetD
  cases hf : m.find? (fun kv => kv.1 = k) with
  | none => simp
  | some kv =>
      have hmem := List.mem_of_find?_eq_some hf
      simp
      exact h kv hmem

/-- Nonnegativity of the finite-case `score` (used below through the
agreement with `scoreF` on corpora whose `avgdl` is a positive number). -/
theorem score_exact_nonneg (docs : List String) (query document : String) :
    0 ≤ score (corpusNew docs) query document := by
  unfold score
  refine List.sum_nonneg ?_
  intro x hx
  rcases List.mem_map.mp hx with ⟨term, _, rfl⟩
  have hidf : 0 ≤ alGetD (corpusNew docs).idf term 0 := by
    refine alGetD_nonneg_of_mem_nonneg _ term ?_
    intro p hp
    exact idf_val_nonneg docs p hp
  have hfreq : (0 : ℝ) ≤ ((alGetD (tfFrom document) term 0 : ℕ) : ℝ) := by
    positivity
  have havg : (0 : ℝ) ≤ (((corpusNew docs).avgdl.toRat : ℚ) : ℝ) := by
    exact_mod_cast avgdl_toRat_nonneg docs
  have hnorm : (0 : ℝ) ≤
      K1 * (1 - BconstBM25 + BconstBM25 * (wordCount document : ℝ) /
        (((corpusNew docs).avgdl.toRat : ℚ) : ℝ)) :=
    norm_nonneg_of _ _ (by positivity) havg
  refine mul_nonneg hidf (div_nonneg ?_ ?_)
  · have : (0 : ℝ) ≤ K1 + 1 := by unfold K1; norm_num
    exact mul_nonneg hfreq this
  · exact add_nonneg hfreq hnorm

theorem F32R.div_num (x y : ℝ) (hy : y ≠ 0) :
    F32R.div (.num x) (.num y) = .num (x / y) := by
  show (if y = 0 then
      (if x = 0 then F32R.nan else if 0 < x then F32R.posInf else F32R.negInf)
    else F32R.num (x / y)) = F32R.num (x / y)
  rw [if_neg hy]

theorem map_congr_fn {α β : Type} (l : List α) (f g : α → β)
    (h : ∀ x, f x = g x) : l.map f = l.map g := by
  induction l with
  | nil => rfl
  | cons x rest ih => simp [h x, ih]

theorem foldl_add_map_num {α : Type} (g : α → ℝ) (l : List α) :
    ∀ acc : ℝ, (l.map (fun x => F32R.num (g x))).foldl F32R.add (.num acc) =
      .num (acc + (l.map g).sum) := by
  induction l with
  | nil => intro acc; simp [F32R.add]
  | cons x rest ih =>
      intro acc
      simp only [List.map_cons, List.foldl_cons, List.sum_cons]
      rw [show F32R.add (.num acc) (.num (g x)) = .num (acc + g x) from rfl, ih]
      rw [add_assoc]

theorem norm_pos_finite (dl av : ℝ) (hdl : 0 ≤ dl) (hav : 0 < av) :
    0 < K1 * (1 - BconstBM25 + BconstBM25 * dl / av) := by
  have hq : 0 ≤ dl / av := div_nonneg hdl (le_of_lt hav)
  have h2 : (0 : ℝ) ≤ BconstBM25 * dl / av := by
    rw [mul_div_assoc]
    exact mul_nonneg (by unfold BconstBM25; norm_num) hq
  unfold K1 BconstBM25 at *
  nlinarith

/-- On a corpus whose stored `avgdl` is a positive number, every `f32`
intermediate of `score` is finite, and the `f32` model agrees with the exact
finite-case reading. -/
theorem scoreF_eq_num_score (c : CorpusM) (query document : String) (a : ℚ)
    (ha : c.avgdl = F32Val.num a) (hpos : 0 < a) :
    scoreF c query document = F32R.num (score c query document) := by
  have haR : (0 : ℝ) < ((a : ℚ) : ℝ) := by exact_mod_cast hpos
  have hane : ((a : ℚ) : ℝ) ≠ 0 := ne_of_gt haR
  have htoRat : ((c.avgdl.toRat : ℚ) : ℝ) = ((a : ℚ) : ℝ) := by
    rw [ha]
    rfl
  have hnormF : (F32R.num K1).mul
      (((F32R.num 1).sub (.num BconstBM25)).add
        (((F32R.num BconstBM25).mul (.num ((wordCount document : ℕ) : ℝ))).div
          c.avgdl.toF32R)) =
      .num (K1 * (1 - BconstBM25 + BconstBM25 * (wordCount document : ℝ) /
        ((a : ℚ) : ℝ))) := by
    rw [ha]
    show (F32R.num K1).mul (((F32R.num 1).sub (.num BconstBM25)).add
        ((F32R.num (BconstBM25 * (wordCount document : ℝ))).div
          (.num ((a : ℚ) : ℝ)))) = _
    rw [F32R.div_num _ _ hane]
    rfl
  simp only [scoreF, score]
  simp only [hnormF, htoRat]
  set nr : ℝ := K1 * (1 - BconstBM25 + BconstBM25 * (wordCount document : ℝ) /
      ((a : ℚ) : ℝ)) with hnr
  have hnormpos : 0 < nr := by
    rw [hnr]
    exact norm_pos_finite _ _ (by positivity) haR
  have hterm : ∀ term : String,
      (F32R.num (alGetD c.idf term 0)).mul
        (((F32R.num ((alGetD (tfFrom document) term 0 : ℕ) : ℝ)).mul
            ((F32R.num K1).add (F32R.num 1))).div
          ((F32R.num ((alGetD (tfFrom document) term 0 : ℕ) : ℝ)).add
            (F32R.num nr))) =
      F32R.num (alGetD c.idf term 0 *
        (((alGetD (tfFrom document) term 0 : ℕ) : ℝ) * (K1 + 1) /
          (((alGetD (tfFrom document) term 0 : ℕ) : ℝ) + nr))) := by
    intro term
    have hfge : (0 : ℝ) ≤ ((alGetD (tfFrom document) term 0 : ℕ) : ℝ) := by
      positivity
    have hden : ((alGetD (tfFrom document) term 0 : ℕ) : ℝ) + nr ≠ 0 :=
      ne_of_gt (by linarith)
    show (F32R.num (alGetD c.idf term 0)).mul
        ((F32R.num (((alGetD (tfFrom document) term 0 : ℕ) : ℝ) * (K1 + 1))).div
          (F32R.num (((alGetD (tfFrom document) term 0 : ℕ) : ℝ) + nr))) = _
    rw [F32R.div_num _ _ hden]
    rfl
  rw [map_congr_fn (tokenizeC query) _ _ hterm]
  simp only [F32R.sumList]
  rw [foldl_add_map_num]
  rw [zero_add]

/-- C7 counterexample: on `Corpus::new(vec![])` the stored `avgdl` is `0.0 /
0.0 = NaN`; scoring the nonempty query `"b"` against the document `"b"` then
computes `norm = NaN` and the whole sum is NaN — and `NaN >= 0.0` is false,
refuting the claimed universal nonnegativity. -/
theorem c7_counterexample :
    scoreF (corpusNew []) "b" "b" = F32R.nan
    ∧ ¬ (scoreF (corpusNew []) "b" "b").isNonneg := by
  have h : scoreF (corpusNew []) "b" "b" = F32R.nan := rfl
  refine ⟨h, ?_⟩
  rw [h]
  exact fun hf => hf

/-- C7 (amended): on every corpus whose `avgdl` is a positive number — in
particular every corpus built from a document list containing a word — the
`f32` score is nonnegative; the empty query scores exactly `0.0` on **every**
corpus (the empty sum, even when `avgdl` is NaN); and `Corpus::new` cannot
fail: on the empty document list it produces `avgdl = 0.0 / 0.0 = NaN`, which
poisons every nonempty-query score (see the counterexample). -/
theorem c7_score_nonneg_finite :
    (∀ (docs : List String) (query document : String) (a : ℚ),
        avgdlFrom docs = F32Val.num a → 0 < a →
        (scoreF (corpusNew docs) query document).isNonneg)
    ∧ (∀ (c : CorpusM) (document : String), scoreF c "" document = F32R.num 0)
    ∧ avgdlFrom [] = F32Val.nan := by
  refine ⟨?_, ?_, by decide⟩
  · intro docs query document a ha hpos
    have hc : (corpusNew docs).avgdl = F32Val.num a := ha
    rw [scoreF_eq_num_score (corpusNew docs) query document a hc hpos]
    show 0 ≤ score (corpusNew docs) query document
    exact score_exact_nonneg docs query document
  · intro c document
    rfl

/-- C7 witness: `c7_score_nonneg_finite` at the one-document corpus `["a"]`
(`avgdl = 1`), query `"b"`, document `"b"`; plus its empty-query and
empty-corpus clauses at concrete inputs. -/
theorem c7_witness :
    (scoreF (corpusNew ["a"]) "b" "b").isNonneg
    ∧ scoreF (corpusNew ["a"]) "" "a" = F32R.num 0
    ∧ avgdlFrom [] = F32Val.nan := by
  refine ⟨c7_score_nonneg_finite.1 ["a"] "b" "b" 1 ?_ one_pos,
    c7_score_nonneg_finite.2.1 (corpusNew ["a"]) "a",
    c7_score_nonneg_finite.2.2⟩
  have h1 : wordCount "a" = 1 := by decide
  simp [avgdlFrom, f32Div, h1]

/-- C2: `Df::from` merges the per-document maps with `HashMap::extend`, which
overwrites instead of summing: on two copies of the document `"a"`, `df["a"]`
is `1`, while the number of documents whose deduplicated term set contains
`"a"` is `2`. -/
theorem c2_df_overwritten_not_summed :
    alGet (dfFrom ["a", "a"]) "a" = some 1
    ∧ (["a", "a"].filter (fun d => "a" ∈ tokenizeC d)).length = 2 := by
  constructor <;> decide

/-- C1: on the corpus `["a b", "a b b"]` an extra occurrence of the queried
term `b` **lowers** the score: `Corpus::tokenize` returns a deduplicated
`HashSet`, so the term-frequency map of `score` is 1 for every present term
regardless of multiplicity, while the extra occurrence lengthens the document
and so increases the length normalization.  This contradicts the claim (and
the crate's own `more_occurences_raise_score` property test). -/
theorem c1_extra_occurrence_lowers_score :
    score (corpusNew ["a b", "a b b"]) "b" "a b b" <
      score (corpusNew ["a b", "a b b"]) "b" "a b" := by
  have ht : tokenizeC "b" = ["b"] := by decide
  have htf1 : alGetD (tfFrom "a b") "b" 0 = 1 := by decide
  have htf2 : alGetD (tfFrom "a b b") "b" 0 = 1 := by decide
  have hwc1 : wordCount "a b" = 2 := by decide
  have hwc2 : wordCount "a b b" = 3 := by decide
  have havg : (corpusNew ["a b", "a b b"]).avgdl.toRat = 5 / 2 := by
    show (avgdlFrom ["a b", "a b b"]).toRat = 5 / 2
    unfold avgdlFrom f32Div
    norm_num [hwc1, hwc2, F32Val.toRat]
  have hdf : dfFrom ["a b", "a b b"] = [("a", 1), ("b", 1), ("a", 1), ("b", 1)] := by
    decide
  have hidf : alGetD (corpusNew ["a b", "a b b"]).idf "b" 0 =
      Real.log (idfArg 2 1) := by
    show alGetD (idfFrom ["a b", "a b b"]) "b" 0 = Real.log (idfArg 2 1)
    unfold idfFrom
    rw [hdf]
    simp [alGetD, List.find?]
  have hlogpos : 0 < Real.log (idfArg 2 1) := by
    refine Real.log_pos ?_
    unfold idfArg
    norm_num
  unfold score
  rw [ht]
  simp only [List.map_cons, List.map_nil, List.sum_cons, List.sum_nil, add_zero]
  rw [htf1, htf2, hidf, hwc1, hwc2, havg]
  have hk1 : K1 = 1.6 := rfl
  have hb : BconstBM25 = 0.75 := rfl
  rw [hk1, hb]
  push_cast
  rw [mul_lt_mul_left hlogpos]
  norm_num

/-! ### Lemmas about the PageRank iteration -/

theorem sum_groupby {n : ℕ} (g : (Fin n × Fin n) → Fin n)
    (f : (Fin n × Fin n) → ℚ) (edges : List (Fin n × Fin n)) :
    ∑ j, ((edges.filter (fun e => g e = j)).map f).sum = (edges.map f).sum := by
  induction edges with
  | nil => simp
  | cons e rest ih =>
      have hsplit : ∀ j, ((e :: rest).filter (fun e2 => g e2 = j)).map f =
          (if g e = j then [f e] else []) ++
            ((rest.filter (fun e2 => g e2 = j)).map f) := by
        intro j
        by_cases hj : g e = j <;> simp [List.filter_cons, hj]
      have h2 : ∀ j, (((e :: rest).filter (fun e2 => g e2 = j)).map f).sum =
          (if g e = j then f e else 0) +
            ((rest.filter (fun e2 => g e2 = j)).map f).sum := by
        intro j
        rw [hsplit j]
        by_cases hj : g e = j <;> simp [hj]
      calc ∑ j, (((e :: rest).filter (fun e2 => g e2 = j)).map f).sum
          = ∑ j, ((if g e = j then f e else 0) +
              ((rest.filter (fun e2 => g e2 = j)).map f).sum) := by
            exact Finset.sum_congr rfl (fun j _ => h2 j)
        _ = (∑ j, if g e = j then f e else 0) +
              ∑ j, ((rest.filter (fun e2 => g e2 = j)).map f).sum := by
            rw [Finset.sum_add_distrib]
        _ = f e + (rest.map f).sum := by
            rw [ih, Finset.sum_ite_eq]
            simp
        _ = ((e :: rest).map f).sum := by simp

theorem sum_map_const_of_mem {α : Type} (l : List α) (f : α → ℚ) (c : ℚ)
    (h : ∀ x ∈ l, f x = c) : (l.map f).sum = l.length * c := by
  induction l with
  | nil => simp
  | cons x rest ih =>
      have hx := h x (List.mem_cons_self x rest)
      have hrest := ih (fun y hy => h y (List.mem_cons_of_mem x hy))
      simp [hx, hrest]
      ring

theorem sum_contrib {n : ℕ} (edges : List (Fin n × Fin n)) (rank : Fin n → ℚ) :
    ∑ dst, ((inboundOf edges dst).map
        (fun src => rank src / (outdegOf edges src : ℚ))).sum =
      ∑ i, if outdegOf edges i = 0 then 0 else rank i := by
  have h1 : ∀ dst, ((inboundOf edges dst).map
      (fun src => rank src / (outdegOf edges src : ℚ))) =
      ((edges.filter (fun e => e.2 = dst)).map
        (fun e => rank e.1 / (outdegOf edges e.1 : ℚ))) := by
    intro dst
    unfold inboundOf
    rw [List.map_map]
    rfl
  calc ∑ dst, ((inboundOf edges dst).map
        (fun src => rank src / (outdegOf edges src : ℚ))).sum
      = ∑ dst, (((edges.filter (fun e => e.2 = dst)).map
          (fun e => rank e.1 / (outdegOf edges e.1 : ℚ)))).sum := by
        exact Finset.sum_congr rfl (fun dst _ => by rw [h1 dst])
    _ = (edges.map (fun e => rank e.1 / (outdegOf edges e.1 : ℚ))).sum :=
        sum_groupby (fun e => e.2) _ edges
    _ = ∑ i, (((edges.filter (fun e => e.1 = i)).map
          (fun e => rank e.1 / (outdegOf edges e.1 : ℚ)))).sum :=
        (sum_groupby (fun e => e.1) _ edges).symm
    _ = ∑ i, (outdegOf edges i : ℚ) * (rank i / (outdegOf edges i : ℚ)) := by
        refine Finset.sum_congr rfl (fun i _ => ?_)
        rw [sum_map_const_of_mem _ _ (rank i / (outdegOf edges i : ℚ)) ?_]
        · rfl
        · intro e he
          have : e.1 = i := by
            have := List.of_mem_filter he
            simpa using this
          rw [this]
    _ = ∑ i, if outdegOf edges i = 0 then 0 else rank i := by
        refine Finset.sum_congr rfl (fun i _ => ?_)
        by_cases hz : outdegOf edges i = 0
        · simp [hz]
        · have : ((outdegOf edges i : ℚ)) ≠ 0 := by
            exact_mod_cast hz
          rw [if_neg hz, mul_div_cancel₀ _ this]

theorem sum_stepRank {n : ℕ} (hn : 0 < n) (edges : List (Fin n × Fin n))
    (rank : Fin n → ℚ) :
    ∑ j, stepRank edges rank j = (1 - Dconst) + Dconst * ∑ i, rank i := by
  have hne : ((n : ℚ)) ≠ 0 := by
    exact_mod_cast Nat.pos_iff_ne_zero.mp hn
  unfold stepRank
  rw [Finset.sum_add_distrib, ← Finset.mul_sum, sum_contrib edges rank]
  have hsplit : (∑ i, if outdegOf edges i = 0 then 0 else rank i) =
      (∑ i, rank i) - ∑ i, if outdegOf edges i = 0 then rank i else 0 := by
    rw [eq_sub_iff_add_eq, ← Finset.sum_add_distrib]
    refine Finset.sum_congr rfl (fun i _ => ?_)
    by_cases hz : outdegOf edges i = 0 <;> simp [hz]
  rw [hsplit, Finset.sum_const, Finset.card_univ, Fintype.card_fin]
  field_simp
  ring

theorem rankLoop_sum_one {n : ℕ} (hn : 0 < n) (edges : List (Fin n × Fin n))
    (tol : ℚ) : ∀ (k : Nat) (r : Fin n → ℚ), (∑ i, r i) = 1 →
      ∑ i, rankLoop edges tol k r i = 1 := by
  intro k
  induction k with
  | zero => intro r hr; simpa [rankLoop] using hr
  | succ k ih =>
      intro r hr
      have hnext : ∑ i, stepRank edges r i = 1 := by
        rw [sum_stepRank hn edges r, hr]
        unfold Dconst
        norm_num
      unfold rankLoop
      by_cases hd : deltaOf r (stepRank edges r) < tol
      · simpa [hd] using hnext
      · simpa [hd] using ih (stepRank edges r) hnext

theorem sum_rankInit {n : ℕ} (hn : 0 < n) : ∑ i, rankInit n i = 1 := by
  have hne : ((n : ℚ)) ≠ 0 := by
    exact_mod_cast Nat.pos_iff_ne_zero.mp hn
  unfold rankInit
  rw [Finset.sum_const, Finset.card_univ, Fintype.card_fin]
  field_simp

theorem stepRank_no_edges {n : ℕ} (hn : 0 < n) :
    stepRank ([] : List (Fin n × Fin n)) (rankInit n) = rankInit n := by
  have hne : ((n : ℚ)) ≠ 0 := by
    exact_mod_cast Nat.pos_iff_ne_zero.mp hn
  funext dst
  unfold stepRank
  have hdang : (∑ i, if outdegOf ([] : List (Fin n × Fin n)) i = 0
      then rankInit n i else 0) = 1 := by
    have : ∀ i : Fin n, outdegOf ([] : List (Fin n × Fin n)) i = 0 := by
      intro i; rfl
    calc (∑ i, if outdegOf ([] : List (Fin n × Fin n)) i = 0
        then rankInit n i else 0) = ∑ i, rankInit n i := by
          exact Finset.sum_congr rfl (fun i _ => by rw [if_pos (this i)])
      _ = 1 := sum_rankInit hn
  rw [hdang]
  simp [inboundOf, rankInit]
  field_simp

theorem rankLoop_no_edges {n : ℕ} (hn : 0 < n) (tol : ℚ) :
    ∀ k : Nat, rankLoop ([] : List (Fin n × Fin n)) tol k (rankInit n) =
      rankInit n := by
  intro k
  induction k with
  | zero => rfl
  | succ k ih =>
      unfold rankLoop
      rw [stepRank_no_edges hn]
      by_cases hd : deltaOf (rankInit n) (rankInit n) < tol
      · simp [hd]
      · simpa [hd] using ih

/-- C6: the PageRank computation starts at `1/N`, every iteration preserves
`Σ rank = 1` **exactly** in exact arithmetic (so the sum stays within the
claimed `tol · N` of 1 for every positive tolerance), and on a graph with
zero resolvable edges every iterate — hence the returned vector — is exactly
`[1/N, …, 1/N]`. -/
theorem c6_pagerank_sum_invariant (n : ℕ) (edges : List (Fin n × Fin n))
    (numIter : Nat) (tol : ℚ) (hn : 0 < n) (htol : 0 < tol) :
    (rankInit n = fun _ => 1 / (n : ℚ))
    ∧ (∀ k : Nat, ∑ i, rankLoop edges tol k (rankInit n) i = 1)
    ∧ |(∑ i, rankRun edges numIter tol i) - 1| < tol * n
    ∧ (edges = [] → rankRun edges numIter tol = rankInit n) := by
  refine ⟨rfl, ?_, ?_, ?_⟩
  · intro k
    exact rankLoop_sum_one hn edges tol k (rankInit n) (sum_rankInit hn)
  · have h1 : ∑ i, rankRun edges numIter tol i = 1 :=
      rankLoop_sum_one hn edges tol numIter (rankInit n) (sum_rankInit hn)
    rw [h1]
    simp only [sub_self, abs_zero]
    have hnq : (0 : ℚ) < (n : ℚ) := by exact_mod_cast hn
    positivity
  · intro he
    rw [he]
    exact rankLoop_no_edges hn tol numIter

/-- C6 witness: `c6_pagerank_sum_invariant` on two vertices with one edge
`0 → 1`, three iterations, tolerance `1`. -/
theorem c6_witness :
    (rankInit 2 = fun _ => 1 / ((2 : ℕ) : ℚ))
    ∧ (∀ k : Nat, ∑ i, rankLoop [((0 : Fin 2), (1 : Fin 2))] 1 k (rankInit 2) i = 1)
    ∧ |(∑ i, rankRun [((0 : Fin 2), (1 : Fin 2))] 3 1 i) - 1| < 1 * (2 : ℕ)
    ∧ ([((0 : Fin 2), (1 : Fin 2))] = [] →
        rankRun [((0 : Fin 2), (1 : Fin 2))] 3 1 = rankInit 2) :=
  c6_pagerank_sum_invariant 2 [((0 : Fin 2), (1 : Fin 2))] 3 1 (by decide)
    (by simp)

/-- C9 witness: `c9_didchange_updates_rope_only` at a one-entry store. -/
theorem c9_witness :
    alGet ((BackendM.didChange { documents := [("u", "x".toList)], vaultLinks := [] } "u"
        [{ range := none, text := "yz" }]).documents) "u" =
      some ([({ range := none, text := "yz" } : ChangeEvent)].foldl applyChange ("x".toList))
    ∧ (BackendM.didChange { documents := [("u", "x".toList)], vaultLinks := [] } "u"
        [{ range := none, text := "yz" }]).vaultLinks = [] :=
  c9_didchange_updates_rope_only
    { documents := [("u", "x".toList)], vaultLinks := [] } "u"
    [{ range := none, text := "yz" }] ("x".toList) (by decide)

end NSpec

